import Mathlib

/-!
Verification of the `zap` parallel SSH file-transfer tool.

The wired program is `main.rs` → `utils.rs` → `ssh_comm.rs`: the coordinator
plans N byte segments, spawns one worker per segment, each worker shells out
to `ssh` (`dd` on pull, `cat` on push) writing a per-stream temporary file
`stream_i.bin`, and on full success the coordinator concatenates the stream
files into the destination.  `ssh.rs` (SFTP workers, `extend_remote_file`,
`calculate_retry_delay`) is present in the source tree but `main.rs` declares
only `mod ssh_comm; mod utils;`, so those functions are not on the wired path;
they are embedded here as well where a claim names them.

Strings and file contents are modelled as `List Nat` (byte sequences);
file paths likewise, so that path construction from the `format!` calls in
the source can be reasoned about with list lemmas.
-/

namespace Zap

/-- Bytes of a literal ASCII string (model of a Rust `&str`). -/
def strBytes (s : String) : List Nat :=
  s.data.map Char.toNat

/-- Little-endian decimal digits of `n`, with explicit fuel; `decAux n n`
computes the digits of `n` (model of the decimal rendering done by
`format!` on a `usize`). -/
def decAux : Nat → Nat → List Nat
  | 0, _ => []
  | fuel + 1, n => if n = 0 then [] else n % 10 :: decAux fuel (n / 10)

/-- ASCII bytes of the decimal rendering of `n`, as produced by
`format!` in `ssh_comm.rs` when building `stream_i.bin` names. -/
def natDecBytes (n : Nat) : List Nat :=
  if n = 0 then [48] else ((decAux n n).reverse.map (fun d => 48 + d))

/-- Value of a little-endian digit list (used only to invert `decAux`). -/
def decVal : List Nat → Nat
  | [] => 0
  | d :: ds => d + 10 * decVal ds

/-- Path of the per-stream temporary file, `format!("{}/stream_{}.bin", dir, i)`
(`ssh_comm.rs:69` on pull, and the remote `cat > {}/stream_{}.bin` target on
push at `ssh_comm.rs:167`). -/
def streamPath (dir : List Nat) (i : Nat) : List Nat :=
  dir ++ strBytes "/stream_" ++ natDecBytes i ++ strBytes ".bin"

/-- Path of the assembled destination, `Path::new(local_path).join(file_name)`
(`utils.rs:354`), for a directory path without a trailing slash. -/
def destPath (dir name : List Nat) : List Nat :=
  dir ++ strBytes "/" ++ name

/-! ## Segment planning (`utils.rs:145-174` push, `utils.rs:278-307` pull) -/

/-- `let stream_size = file_size / num_streams;` -/
def stream_size (S N : Nat) : Nat := S / N

/-- `let extra_bytes = file_size % num_streams;` -/
def extra_bytes (S N : Nat) : Nat := S % N

/-- `let start = stream_num * stream_size;` -/
def seg_start (S N i : Nat) : Nat := i * stream_size S N

/-- `let mut end = start + stream_size; if stream_num == num_streams - 1 { end += extra_bytes; }` -/
def seg_end (S N i : Nat) : Nat :=
  seg_start S N i + stream_size S N + (if i = N - 1 then extra_bytes S N else 0)

/-- Number of bytes a stream moves: `end - start`. -/
def seg_len (S N i : Nat) : Nat := seg_end S N i - seg_start S N i

/-! ## Pull data plane (`ssh_comm.rs:12-146`) -/

/-- `const BUFFER_SIZE: usize = 1 * 1024 * 1024;` (`ssh_comm.rs:10`). -/
def BUFFER_SIZE : Nat := 1 * 1024 * 1024

/-- Bytes produced on stdout by the remote command
`dd if=remote_file bs=BUFFER_SIZE skip=start/BUFFER_SIZE count=ceil(bytes/BUFFER_SIZE) status=none`
(`ssh_comm.rs:31-37`): `dd` skips `skip` whole blocks, then reads `count`
blocks of up to `BUFFER_SIZE` bytes from the source file. -/
def ddOutput (src : List Nat) (start bytes : Nat) : List Nat :=
  (src.drop ((start / BUFFER_SIZE) * BUFFER_SIZE)).take
    (((bytes + BUFFER_SIZE - 1) / BUFFER_SIZE) * BUFFER_SIZE)

/-- Bytes the pull worker writes into `stream_i.bin`: the read loop at
`ssh_comm.rs:76-103` copies stdout into the file, truncating each chunk with
`write_size = min(n, bytes_to_read - total_read)` and stopping once
`total_read >= bytes_to_read`, i.e. the first `bytes_to_read` bytes of the
`dd` output. -/
def pullStreamContent (src : List Nat) (N i : Nat) : List Nat :=
  (ddOutput src (seg_start src.length N i) (seg_len src.length N i)).take
    (seg_len src.length N i)

/-- Whether stream `i` reports success: its external attempt succeeded
(`ok i` abstracts ssh spawn/exit status) and the check
`total_read == bytes_to_read` at `ssh_comm.rs:105` passed, which holds iff
the `dd` output carried at least `bytes_to_read` bytes. -/
def pullStreamDone (src : List Nat) (N : Nat) (ok : Nat → Bool) (i : Nat) : Bool :=
  ok i && decide (seg_len src.length N i ≤
    (ddOutput src (seg_start src.length N i) (seg_len src.length N i)).length)

/-- `flags.iter().any(|&flag| flag)` is false, i.e. every stream succeeded
(`utils.rs:341-342`). -/
def pullAllOk (src : List Nat) (N : Nat) (ok : Nat → Bool) : Bool :=
  (List.range N).all (pullStreamDone src N ok)

/-! ## Local filesystem model

File operations the pull path performs on the local host, and a small
interpreter for them.  A filesystem state is an association list from path
to content, in creation order. -/

/-- A single local file operation performed by the pull path. -/
inductive FileOp where
  /-- `File::create(path)`: create or truncate to empty. -/
  | createFile : List Nat → FileOp
  /-- Sequential `write_all` of a byte run at the end of the file. -/
  | writeAll : List Nat → List Nat → FileOp
  /-- `io::copy(&mut from, &mut to)`: append the content of `from` to `to`
  (`ssh_comm.rs:286`). -/
  | copyInto : List Nat → List Nat → FileOp
  /-- `fs::remove_file(path)` (`ssh_comm.rs:287`). -/
  | removeFile : List Nat → FileOp
  /-- `File::set_len(size)`: pre-extension.  Never emitted by the wired
  code; listed because the claim under test asserts it happens. -/
  | setLen : List Nat → Nat → FileOp
deriving DecidableEq

/-- Filesystem state: association list path ↦ content. -/
def FsState : Type := List (List Nat × List Nat)

instance : DecidableEq FsState := by
  unfold FsState
  infer_instance

/-- Content of `p`, or `[]` when absent. -/
def getD : FsState → List Nat → List Nat
  | [], _ => []
  | (q, v) :: rest, p => if q = p then v else getD rest p

/-- Set the content of `p`, appending a new entry when absent. -/
def setEntry : FsState → List Nat → List Nat → FsState
  | [], p, v => [(p, v)]
  | (q, w) :: rest, p, v => if q = p then (p, v) :: rest else (q, w) :: setEntry rest p v

/-- Delete the entry of `p`. -/
def removeEntry : FsState → List Nat → FsState
  | [], _ => []
  | (q, w) :: rest, p => if q = p then removeEntry rest p else (q, w) :: removeEntry rest p

/-- Paths present in the state. -/
def fsKeys (s : FsState) : List (List Nat) := s.map Prod.fst

/-- Effect of one file operation on the filesystem state. -/
def applyOp (s : FsState) : FileOp → FsState
  | .createFile p => setEntry s p []
  | .writeAll p d => setEntry s p (getD s p ++ d)
  | .copyInto p q => setEntry s q (getD s q ++ getD s p)
  | .removeFile p => removeEntry s p
  | .setLen p n =>
      setEntry s p ((getD s p).take n ++ List.replicate (n - (getD s p).length) 0)

/-- Run a list of operations in order. -/
def applyOps (s : FsState) (ops : List FileOp) : FsState := ops.foldl applyOp s

/-- Local file operations of pull worker `i` (`ssh_comm.rs:67-103`): when its
ssh subprocess runs (`ok i`), it creates `dir/stream_i.bin` and writes the
truncated `dd` output into it; when spawning fails on every attempt, no local
file is touched. -/
def pullWorkerOps (dir : List Nat) (src : List Nat) (N : Nat) (ok : Nat → Bool)
    (i : Nat) : List FileOp :=
  if ok i then
    [.createFile (streamPath dir i),
     .writeAll (streamPath dir i) (pullStreamContent src N i)]
  else []

/-- Local file operations performed before any worker is spawned: the pull
coordinator (`utils.rs:241-300`) only stats the remote file over ssh, builds
stats and progress bars — it touches no local file. -/
def pullPreWorkerOps : List FileOp := []

/-- All worker-phase local file operations, stream order
(`utils.rs:288-335`). -/
def pullWorkerPhase (dir : List Nat) (src : List Nat) (N : Nat)
    (ok : Nat → Bool) : List FileOp :=
  ((List.range N).map (pullWorkerOps dir src N ok)).flatten

/-- Local file operations of `assemble_local_streams` (`ssh_comm.rs:275-291`):
create the output file, then for each stream in order copy its file into the
output and remove it. -/
def pullAssemblyOps (dir name : List Nat) (N : Nat) : List FileOp :=
  .createFile (destPath dir name) ::
    ((List.range N).map (fun i =>
      [FileOp.copyInto (streamPath dir i) (destPath dir name),
       FileOp.removeFile (streamPath dir i)])).flatten

/-- Concatenation of the per-stream contents in stream order. -/
def pullAssembled (src : List Nat) (N : Nat) : List Nat :=
  ((List.range N).map (pullStreamContent src N)).flatten

/-- Split a character list on every occurrence of `sep`
(model of Rust `str::split(sep)`; chunks may be empty, `[]` yields `[[]]`). -/
def splitAllChar (sep : Char) : List Char → List (List Char)
  | [] => [[]]
  | c :: rest =>
    if c = sep then [] :: splitAllChar sep rest
    else
      match splitAllChar sep rest with
      | [] => [[c]]
      | g :: gs => (c :: g) :: gs

/-- Model of `Path::file_name` (Rust std) for simple relative paths without
trailing slashes or dot components: the last nonempty slash-separated
component. -/
def file_name_model (s : List Char) : Option (List Char) :=
  match ((splitAllChar '/' s).filter (fun c => !c.isEmpty)).getLast? with
  | some last => if last = ['.'] ∨ last = ['.', '.'] then none else some last
  | none => none

/-- Exit code and final local filesystem state of a pull transfer
(`split_and_copy_from_remote`, `utils.rs:229-363`, composed with
`main.rs:179-192`): run the workers; if any stream failed, return `Err`
(main exits 1) leaving the stream files; otherwise assemble into
`local_path.join(file_name(remote_file))` and exit 0.  `src` is the remote
file's bytes (its length is what `wc -c` reported), `ok i` abstracts whether
stream `i`'s ssh subprocess ran successfully. -/
def pullRun (dir : List Nat) (remote_file : List Char) (src : List Nat) (N : Nat)
    (ok : Nat → Bool) : Nat × FsState :=
  let s1 := applyOps [] (pullWorkerPhase dir src N ok)
  if pullAllOk src N ok then
    match file_name_model remote_file with
    | some name => (0, applyOps s1 (pullAssemblyOps dir (name.map Char.toNat) N))
    | none => (1, s1)
  else (1, s1)

/-! ## Retry loop (`ssh_comm.rs:25-146`, `ssh_comm.rs:161-273`; the dead
`ssh.rs:167-246` worker has the same loop shape) -/

/-- One-attempt-at-a-time retry loop: `while attempt <= retries` runs an
attempt; success returns immediately, failure increments `attempt` and gives
up once `attempt > retries`.  Fuel is the remaining number of admissible
attempts; returns (succeeded, attempts performed). -/
def retryAux (outcome : Nat → Bool) : Nat → Nat → Bool × Nat
  | 0, _ => (false, 0)
  | fuel + 1, k =>
    if outcome k then (true, 1)
    else
      let r := retryAux outcome fuel (k + 1)
      (r.1, r.2 + 1)

/-- The full worker retry loop with budget `retries`: starts at `attempt = 0`
with `retries + 1` admissible attempts. -/
def streamRetryLoop (retries : Nat) (outcome : Nat → Bool) : Bool × Nat :=
  retryAux outcome (retries + 1) 0

/-! ## Retry delays -/

/-- `const RETRY_DELAY_SECONDS: u64 = 5;` (`ssh_comm.rs:9`). -/
def RETRY_DELAY_SECONDS : Nat := 5

/-- Milliseconds a wired worker sleeps between attempts:
`thread::sleep(Duration::from_secs(RETRY_DELAY_SECONDS))`
(`ssh_comm.rs:62,140,191,267`) — a constant, independent of the attempt
number. -/
def wired_retry_delay_ms (_attempt : Nat) : Nat := 1000 * RETRY_DELAY_SECONDS

/-- `const BASE_RETRY_DELAY_MS: u64 = 1000;` (`ssh.rs:13`). -/
def BASE_RETRY_DELAY_MS : Nat := 1000

/-- `const MAX_RETRY_DELAY_MS: u64 = 30000;` (`ssh.rs:14`). -/
def MAX_RETRY_DELAY_MS : Nat := 30000

/-- `std::cmp::min(BASE_RETRY_DELAY_MS * 2_u64.pow(attempt), MAX_RETRY_DELAY_MS)`
(`ssh.rs:144-147`), with u64 wrapping made explicit. -/
def calc_delay_ms (k : Nat) : Nat :=
  min ((BASE_RETRY_DELAY_MS * (2 ^ k % 2 ^ 64)) % 2 ^ 64) MAX_RETRY_DELAY_MS

/-- Rust `as i64` on an f64: truncation toward zero (values here are far
inside the i64 range). -/
def truncI (q : ℚ) : ℤ :=
  if 0 ≤ q then ⌊q⌋ else -⌊-q⌋

/-- `(delay_ms as f64 * 0.2 * (rand::random::<f64>() - 0.5)) as i64`
(`ssh.rs:150`), with the uniform draw `u ∈ [0,1)` passed in and reals
modelled by ℚ. -/
def calc_jitter (k : Nat) (u : ℚ) : ℤ :=
  truncI ((calc_delay_ms k : ℚ) * (2 / 10) * (u - 1 / 2))

/-- `(delay_ms as i64 + jitter).max(0) as u64` (`ssh.rs:151`): the delay in
milliseconds computed by `calculate_retry_delay` — dead code on the wired
path. -/
def calculate_retry_delay_ms (k : Nat) (u : ℚ) : Nat :=
  ((calc_delay_ms k : ℤ) + calc_jitter k u).toNat

/-! ## Authentication chain (`ssh.rs:47-91`) -/

/-- Which authentication step produced the session. -/
inductive AuthMethod where
  | explicitKey : AuthMethod
  | defaultKey : Nat → AuthMethod
  | agent : AuthMethod
deriving DecidableEq

/-- Result of `connect_and_auth` after the handshake. -/
inductive AuthResult where
  | ok : AuthMethod → AuthResult
  /-- `PermissionDenied` with the `--ssh-key-path` hint (`ssh.rs:83-88`). -/
  | permissionDenied : AuthResult
deriving DecidableEq

/-- The default-key loop (`ssh.rs:69-75`): for each candidate, if the file
exists, attempt public-key auth and stop at the first success; a failing
existing key falls through to the next candidate. -/
def tryDefaultKeys : List (Nat × Bool × Bool) → Option AuthMethod
  | [] => none
  | (i, ex, ok) :: rest =>
    if ex then (if ok then some (.defaultKey i) else tryDefaultKeys rest)
    else tryDefaultKeys rest

/-- `connect_and_auth` authentication chain as the source wires it
(`ssh.rs:47-91`): explicit key if configured (failure only warns); then —
whenever the session is still unauthenticated — the default keys
`id_ed25519`, `id_rsa`, `id_ecdsa` under `HOME`; then the agent; else
`PermissionDenied`.  Booleans abstract the environment: whether each
userauth call succeeds, whether each default key file exists, and whether
`HOME` is set. -/
def connect_and_auth_code (hasKey explicitOk homeSet e0 o0 e1 o1 e2 o2 agentOk : Bool) :
    AuthResult :=
  let auth1 : Option AuthMethod :=
    if hasKey then (if explicitOk then some .explicitKey else none) else none
  let auth2 : Option AuthMethod :=
    match auth1 with
    | some m => some m
    | none =>
        let defaults : List (Nat × Bool × Bool) :=
          if homeSet then [(0, e0, o0), (1, e1, o1), (2, e2, o2)] else []
        tryDefaultKeys defaults
  let auth3 : Option AuthMethod :=
    match auth2 with
    | some m => some m
    | none => if agentOk then some .agent else none
  match auth3 with
  | some m => .ok m
  | none => .permissionDenied

/-- The chain as claim C8 words it: step (b) — default keys — runs only
when no explicit key path is configured (its "otherwise").  Kept separate
from `connect_and_auth_code` so the two can be compared. -/
def connect_and_auth_claim (hasKey explicitOk homeSet e0 o0 e1 o1 e2 o2 agentOk : Bool) :
    AuthResult :=
  let stepA : Option AuthMethod :=
    if hasKey then (if explicitOk then some .explicitKey else none) else none
  let stepB : Option AuthMethod :=
    if hasKey then none
    else
      let defaults : List (Nat × Bool × Bool) :=
        if homeSet then [(0, e0, o0), (1, e1, o1), (2, e2, o2)] else []
      tryDefaultKeys defaults
  match stepA with
  | some m => .ok m
  | none =>
    match stepB with
    | some m => .ok m
    | none => if agentOk then .ok .agent else .permissionDenied

/-- The chain as amended: default keys are attempted whenever the session is
not yet authenticated, including after a failed explicit-key attempt.
Written from the amended claim's words, to be compared with
`connect_and_auth_code`. -/
def connect_and_auth_amended (hasKey explicitOk homeSet e0 o0 e1 o1 e2 o2 agentOk : Bool) :
    AuthResult :=
  let stepA : Option AuthMethod :=
    if hasKey ∧ explicitOk then some .explicitKey else none
  let defaults : List (Nat × Bool × Bool) :=
    if homeSet then [(0, e0, o0), (1, e1, o1), (2, e2, o2)] else []
  let stepB : Option AuthMethod :=
    defaults.findSome? (fun t =>
      if t.2.1 ∧ t.2.2 then some (.defaultKey t.1) else none)
  match stepA.orElse (fun _ => stepB.orElse (fun _ =>
      if agentOk then some .agent else none)) with
  | some m => .ok m
  | none => .permissionDenied

/-! ## CLI argument handling (`main.rs`) -/

/-- Model of Rust `str::parse::<usize>` for plain strings (no leading `+`):
a nonempty all-digit string below `2^64` parses; anything else errors. -/
def parse_usize (s : List Char) : Option Nat :=
  if s.isEmpty then none
  else if s.all (fun c => c.isDigit) then
    let v := s.foldl (fun a c => a * 10 + (c.toNat - 48)) 0
    if v < 2 ^ 64 then some v else none
  else none

/-- The streams flag (`-s`) validation at `main.rs:152-157`: `unwrap_or_else`
exits the process only when parsing fails; a parsed value — including 0 —
is accepted. `none` models the nonzero-exit path. -/
def streams_arg (s : List Char) : Option Nat := parse_usize s

/-- Rust `usize` division as reached at `utils.rs:145` / `utils.rs:278`:
panics (`none`) when the divisor is 0. -/
def stream_size_checked (S n : Nat) : Option Nat :=
  if n = 0 then none else some (S / n)

/-- Split a character list at the first occurrence of `sep`
(model of `splitn(2, sep)` when `sep` occurs): (before, after). -/
def breakAt (sep : Char) : List Char → List Char × List Char
  | [] => ([], [])
  | c :: rest =>
    if c = sep then ([], rest)
    else
      let r := breakAt sep rest
      (c :: r.1, r.2)

/-- `parse_location` (`main.rs:10-47`): strings containing `:` are parsed as
`[user@]host:path` (empty path defaults to `.`, a leading or trailing `@` in
the user-host part or more than one `@` is invalid, and a missing `user@`
falls back to the `USER` environment variable, failing when unset); strings
without `:` are local paths.  Returns `none` on parse failure,
`some (none, path)` for local, `some (some (user, host), path)` for
remote. -/
def parse_location (userEnv : Option (List Char)) (loc : List Char) :
    Option (Option (List Char × List Char) × List Char) :=
  if ':' ∈ loc then
    let user_host := (breakAt ':' loc).1
    let rest := (breakAt ':' loc).2
    let path := if rest.isEmpty then ['.'] else rest
    if user_host.head? = some '@' then none
    else if user_host.getLast? = some '@' then none
    else
      match splitAllChar '@' user_host with
      | [user, host] => some (some (user, host), path)
      | [host] =>
        match userEnv with
        | some user => some (some (user, host), path)
        | none => none
      | _ => none
  else some (none, loc)

/-! ## Exit codes (`main.rs:176-213`, `utils.rs:204-227`, `utils.rs:337-347`) -/

/-- `flags.iter().any(|&flag| flag)` (`utils.rs:209`, `utils.rs:342`). -/
def anyFailed (flags : List Bool) : Bool := flags.any (fun b => b)

/-- Exit code of the pull arm of `main` (`main.rs:179-192`):
`split_and_copy_from_remote` returns `Err` exactly when some stream's flag is
set (`utils.rs:341-346`), and `main` calls `process::exit(1)` on `Err`. -/
def main_exit_pull (flags : List Bool) : Nat :=
  if anyFailed flags then 1 else 0

/-- Whether the push coordinator prints "Some streams failed to transfer and
need to be retried." to stderr (`utils.rs:208-210`). -/
def push_reports_failure (flags : List Bool) : Bool := anyFailed flags

/-- Exit code of the push arm of `main` (`main.rs:194-207`):
`split_and_copy_binary_file` returns `()` in every case, the push arm
inspects nothing, and `main` falls off the end — exit code 0 regardless of
the failure flags. -/
def main_exit_push (_flags : List Bool) : Nat := 0

/-! ## Helper lemmas -/

theorem fsKeys_nil : fsKeys ([] : FsState) = [] := rfl

theorem fsKeys_cons (a b : List Nat) (s : FsState) :
    fsKeys ((a, b) :: s) = a :: fsKeys s := rfl

theorem decVal_decAux : ∀ fuel n, n ≤ fuel → decVal (decAux fuel n) = n := by
  intro fuel
  induction fuel with
  | zero =>
    intro n hn
    have h0 : n = 0 := by omega
    subst h0
    simp [decAux, decVal]
  | succ fuel ih =>
    intro n hn
    by_cases h0 : n = 0
    · simp [decAux, h0, decVal]
    · have hlt : n / 10 < n := Nat.div_lt_self (by omega) (by norm_num)
      have hdiv : n / 10 ≤ fuel := by omega
      have := ih (n / 10) hdiv
      simp only [decAux, h0, if_false, decVal, this]
      omega

theorem natDecBytes_inj {a b : Nat} (h : natDecBytes a = natDecBytes b) : a = b := by
  have hstrip : ∀ x y : Nat, natDecBytes x = natDecBytes y → x ≠ 0 → y ≠ 0 → x = y := by
    intro x y hxy hx hy
    unfold natDecBytes at hxy
    simp only [hx, if_false, hy] at hxy
    have hmap : Function.Injective (fun d : Nat => 48 + d) := by
      intro u v huv
      have huv2 : 48 + u = 48 + v := huv
      omega
    have hrev : (decAux x x).reverse = (decAux y y).reverse :=
      List.map_injective_iff.mpr hmap hxy
    have hlists : decAux x x = decAux y y := by
      have := congrArg List.reverse hrev
      simpa using this
    have hvx := decVal_decAux x x le_rfl
    have hvy := decVal_decAux y y le_rfl
    rw [hlists] at hvx
    omega
  have hzero : ∀ y : Nat, natDecBytes 0 = natDecBytes y → y = 0 := by
    intro y hy
    by_contra hy0
    have hv := decVal_decAux y y le_rfl
    unfold natDecBytes at hy
    simp only [if_pos rfl, hy0, if_false] at hy
    rcases hrev : (decAux y y).reverse with _ | ⟨d, rest⟩
    · rw [hrev] at hy
      simp at hy
    · rw [hrev] at hy
      rcases rest with _ | ⟨d2, rest2⟩
      · simp at hy
        have hone : decAux y y = [d] := by
          have := congrArg List.reverse hrev
          simpa using this
        rw [hone] at hv
        simp [decVal] at hv
        omega
      · simp at hy
  by_cases ha : a = 0
  · subst ha
    exact (hzero b h).symm
  · by_cases hb : b = 0
    · subst hb
      exact hzero a h.symm
    · exact hstrip a b h ha hb

theorem streamPath_inj {dir : List Nat} {i j : Nat}
    (h : streamPath dir i = streamPath dir j) : i = j := by
  unfold streamPath at h
  apply natDecBytes_inj
  have h1 : dir ++ strBytes "/stream_" ++ natDecBytes i =
      dir ++ strBytes "/stream_" ++ natDecBytes j := List.append_cancel_right h
  exact List.append_cancel_left h1

theorem getD_setEntry_self (s : FsState) (p : List Nat) (v : List Nat) :
    getD (setEntry s p v) p = v := by
  induction s with
  | nil => simp [setEntry, getD]
  | cons e rest ih =>
    obtain ⟨q, w⟩ := e
    by_cases hq : q = p
    · simp [setEntry, hq, getD]
    · simp [setEntry, hq, getD, ih]

theorem getD_setEntry_ne (s : FsState) {p q : List Nat} (v : List Nat)
    (h : p ≠ q) : getD (setEntry s q v) p = getD s p := by
  have hq : q ≠ p := Ne.symm h
  induction s with
  | nil => simp [setEntry, getD, hq]
  | cons e rest ih =>
    obtain ⟨r, w⟩ := e
    by_cases hr : r = q
    · subst hr
      simp [setEntry, getD, hq]
    · simp only [setEntry, if_neg hr, getD]
      by_cases hrp : r = p
      · rw [if_pos hrp, if_pos hrp]
      · rw [if_neg hrp, if_neg hrp, ih]

theorem getD_removeEntry_ne (s : FsState) {p q : List Nat} (h : p ≠ q) :
    getD (removeEntry s q) p = getD s p := by
  have hq : q ≠ p := Ne.symm h
  induction s with
  | nil => simp [removeEntry]
  | cons e rest ih =>
    obtain ⟨r, w⟩ := e
    by_cases hr : r = q
    · subst hr
      simp [removeEntry, getD, hq, ih]
    · simp only [removeEntry, if_neg hr, getD]
      by_cases hrp : r = p
      · rw [if_pos hrp, if_pos hrp]
      · rw [if_neg hrp, if_neg hrp, ih]

theorem mem_fsKeys_setEntry {s : FsState} {p r : List Nat} {v : List Nat} :
    r ∈ fsKeys (setEntry s p v) ↔ r ∈ fsKeys s ∨ r = p := by
  induction s with
  | nil => simp [setEntry, fsKeys_nil, fsKeys_cons]
  | cons e rest ih =>
    obtain ⟨q, w⟩ := e
    by_cases hq : q = p
    · subst hq
      simp only [setEntry, if_pos rfl, ite_true, fsKeys_cons, List.mem_cons]
      tauto
    · simp only [setEntry, if_neg hq, fsKeys_cons, List.mem_cons, ih]
      tauto

theorem mem_fsKeys_removeEntry {s : FsState} {p r : List Nat} :
    r ∈ fsKeys (removeEntry s p) ↔ r ∈ fsKeys s ∧ r ≠ p := by
  induction s with
  | nil => simp [removeEntry, fsKeys_nil]
  | cons e rest ih =>
    obtain ⟨q, w⟩ := e
    by_cases hq : q = p
    · subst hq
      simp only [removeEntry, if_pos rfl, ite_true, fsKeys_cons, List.mem_cons, ih]
      constructor
      · rintro ⟨h1, h2⟩
        exact ⟨Or.inr h1, h2⟩
      · rintro ⟨h1 | h1, h2⟩
        · exact absurd h1 h2
        · exact ⟨h1, h2⟩
    · simp only [removeEntry, if_neg hq, fsKeys_cons, List.mem_cons, ih]
      constructor
      · rintro (h1 | ⟨h1, h2⟩)
        · subst h1
          exact ⟨Or.inl rfl, hq⟩
        · exact ⟨Or.inr h1, h2⟩
      · rintro ⟨h1 | h1, h2⟩
        · exact Or.inl h1
        · exact Or.inr ⟨h1, h2⟩

theorem applyOps_append (s : FsState) (a b : List FileOp) :
    applyOps s (a ++ b) = applyOps (applyOps s a) b :=
  List.foldl_append ..

theorem pullWorker_fold (dir : List Nat) (src : List Nat) (N : Nat) (ok : Nat → Bool) :
    ∀ (l : List Nat) (s : FsState), l.Nodup →
      (∀ p, (∀ i ∈ l, p ≠ streamPath dir i) →
        getD (applyOps s ((l.map (pullWorkerOps dir src N ok)).flatten)) p = getD s p) ∧
      (∀ i ∈ l, ok i = true →
        getD (applyOps s ((l.map (pullWorkerOps dir src N ok)).flatten)) (streamPath dir i)
          = pullStreamContent src N i) ∧
      (∀ p, p ∈ fsKeys (applyOps s ((l.map (pullWorkerOps dir src N ok)).flatten)) →
        p ∈ fsKeys s ∨ ∃ i, i ∈ l ∧ ok i = true ∧ p = streamPath dir i) := by
  intro l
  induction l with
  | nil =>
    intro s _
    refine ⟨fun p _ => rfl, fun i hi => absurd hi (List.not_mem_nil i), fun p hp => Or.inl hp⟩
  | cons i l' ih =>
    intro s hnd
    have hnotmem : i ∉ l' := (List.nodup_cons.mp hnd).1
    have hnd' : l'.Nodup := (List.nodup_cons.mp hnd).2
    have hsplit : ((i :: l').map (pullWorkerOps dir src N ok)).flatten =
        pullWorkerOps dir src N ok i ++ ((l'.map (pullWorkerOps dir src N ok)).flatten) := by
      simp
    rw [hsplit, applyOps_append]
    set s' := applyOps s (pullWorkerOps dir src N ok i) with hs'
    have hgetD_other : ∀ p, p ≠ streamPath dir i → getD s' p = getD s p := by
      intro p hp
      by_cases hok : ok i
      · rw [hs']
        simp only [pullWorkerOps, if_pos hok, applyOps, List.foldl_cons, List.foldl_nil, applyOp]
        rw [getD_setEntry_ne _ _ hp, getD_setEntry_ne _ _ hp]
      · rw [hs']
        simp [pullWorkerOps, hok, applyOps]
    have hgetD_self : ok i = true → getD s' (streamPath dir i) = pullStreamContent src N i := by
      intro hok
      rw [hs']
      simp only [pullWorkerOps, if_pos hok, applyOps, List.foldl_cons, List.foldl_nil, applyOp]
      rw [getD_setEntry_self, getD_setEntry_self, List.nil_append]
    have hkeys' : ∀ p, p ∈ fsKeys s' →
        p ∈ fsKeys s ∨ (ok i = true ∧ p = streamPath dir i) := by
      intro p hp
      by_cases hok : ok i
      · rw [hs'] at hp
        simp only [pullWorkerOps, if_pos hok, applyOps, List.foldl_cons, List.foldl_nil,
          applyOp] at hp
        rcases mem_fsKeys_setEntry.mp hp with h2 | h2
        · rcases mem_fsKeys_setEntry.mp h2 with h3 | h3
          · exact Or.inl h3
          · exact Or.inr ⟨hok, h3⟩
        · exact Or.inr ⟨hok, h2⟩
      · rw [hs'] at hp
        simp only [pullWorkerOps, hok, if_false, applyOps, List.foldl_nil] at hp
        exact Or.inl hp
    obtain ⟨ih1, ih2, ih3⟩ := ih s' hnd'
    refine ⟨?_, ?_, ?_⟩
    · intro p hp
      have hp' : ∀ j ∈ l', p ≠ streamPath dir j := fun j hj => hp j (List.mem_cons_of_mem i hj)
      rw [ih1 p hp', hgetD_other p (hp i (List.mem_cons_self i l'))]
    · intro j hj hok
      rcases List.mem_cons.mp hj with hji | hjl
      · subst hji
        have hne : ∀ j' ∈ l', streamPath dir j ≠ streamPath dir j' := by
          intro j' hj' heq
          exact hnotmem (streamPath_inj heq ▸ hj')
        rw [ih1 _ hne, hgetD_self hok]
      · exact ih2 j hjl hok
    · intro p hp
      rcases ih3 p hp with h2 | ⟨j, hj, hokj, hpj⟩
      · rcases hkeys' p h2 with h3 | ⟨hok, h3⟩
        · exact Or.inl h3
        · exact Or.inr ⟨i, List.mem_cons_self i l', hok, h3⟩
      · exact Or.inr ⟨j, List.mem_cons_of_mem i hj, hokj, hpj⟩

theorem pullAssembly_fold (dir : List Nat) (dp : List Nat) (c : Nat → List Nat) :
    ∀ (l : List Nat) (s : FsState), l.Nodup →
      (∀ i ∈ l, dp ≠ streamPath dir i) →
      (∀ i ∈ l, getD s (streamPath dir i) = c i) →
      dp ∈ fsKeys s →
      getD (applyOps s ((l.map (fun i =>
          [FileOp.copyInto (streamPath dir i) dp, FileOp.removeFile (streamPath dir i)])).flatten))
        dp = getD s dp ++ (l.map c).flatten ∧
      (∀ p, p ∈ fsKeys (applyOps s ((l.map (fun i =>
          [FileOp.copyInto (streamPath dir i) dp, FileOp.removeFile (streamPath dir i)])).flatten))
        ↔ p ∈ fsKeys s ∧ ∀ i ∈ l, p ≠ streamPath dir i) := by
  intro l
  induction l with
  | nil =>
    intro s _ _ _ _
    refine ⟨by simp [applyOps], fun p => ?_⟩
    simp [applyOps]
  | cons i l' ih =>
    intro s hnd hne hc hdp
    have hnotmem : i ∉ l' := (List.nodup_cons.mp hnd).1
    have hnd' : l'.Nodup := (List.nodup_cons.mp hnd).2
    have hnei : dp ≠ streamPath dir i := hne i (List.mem_cons_self i l')
    have hsplit : (((i :: l').map (fun i =>
        [FileOp.copyInto (streamPath dir i) dp, FileOp.removeFile (streamPath dir i)])).flatten) =
        [FileOp.copyInto (streamPath dir i) dp, FileOp.removeFile (streamPath dir i)] ++
        ((l'.map (fun i =>
          [FileOp.copyInto (streamPath dir i) dp, FileOp.removeFile (streamPath dir i)])).flatten) := by
      simp
    rw [hsplit, applyOps_append]
    set s' := applyOps s [FileOp.copyInto (streamPath dir i) dp,
      FileOp.removeFile (streamPath dir i)] with hs'
    have hs'eq : s' = removeEntry
        (setEntry s dp (getD s dp ++ getD s (streamPath dir i))) (streamPath dir i) := by
      rw [hs']
      simp [applyOps, applyOp]
    have hdp' : getD s' dp = getD s dp ++ c i := by
      rw [hs'eq, getD_removeEntry_ne _ hnei, getD_setEntry_self,
        hc i (List.mem_cons_self i l')]
    have hother' : ∀ j ∈ l', getD s' (streamPath dir j) = c j := by
      intro j hj
      have hji : streamPath dir j ≠ streamPath dir i := by
        intro heq
        exact hnotmem (streamPath_inj heq ▸ hj)
      have hjdp : streamPath dir j ≠ dp := fun heq => hne j (List.mem_cons_of_mem i hj) heq.symm
      rw [hs'eq, getD_removeEntry_ne _ hji, getD_setEntry_ne _ _ hjdp,
        hc j (List.mem_cons_of_mem i hj)]
    have hdpkeys' : dp ∈ fsKeys s' := by
      rw [hs'eq]
      exact mem_fsKeys_removeEntry.mpr ⟨mem_fsKeys_setEntry.mpr (Or.inr rfl), hnei⟩
    have hkeys' : ∀ p, p ∈ fsKeys s' ↔ p ∈ fsKeys s ∧ p ≠ streamPath dir i := by
      intro p
      rw [hs'eq]
      rw [mem_fsKeys_removeEntry]
      constructor
      · rintro ⟨h1, h2⟩
        rcases mem_fsKeys_setEntry.mp h1 with h3 | h3
        · exact ⟨h3, h2⟩
        · exact ⟨h3 ▸ hdp, h2⟩
      · rintro ⟨h1, h2⟩
        exact ⟨mem_fsKeys_setEntry.mpr (Or.inl h1), h2⟩
    obtain ⟨ih1, ih2⟩ := ih s' hnd' (fun j hj => hne j (List.mem_cons_of_mem i hj)) hother' hdpkeys'
    constructor
    · rw [ih1, hdp']
      simp [List.append_assoc]
    · intro p
      rw [ih2 p, hkeys' p]
      constructor
      · rintro ⟨⟨h1, h2⟩, h3⟩
        refine ⟨h1, ?_⟩
        intro j hj
        rcases List.mem_cons.mp hj with hji | hjl
        · exact hji ▸ h2
        · exact h3 j hjl
      · rintro ⟨h1, h2⟩
        exact ⟨⟨h1, h2 i (List.mem_cons_self i l')⟩, fun j hj => h2 j (List.mem_cons_of_mem i hj)⟩

theorem retryAux_spec (o : Nat → Bool) : ∀ (b k : Nat),
    (retryAux o b k).2 ≤ b ∧
      ((retryAux o b k).1 = true ↔ ∃ j, j < b ∧ o (k + j) = true) := by
  intro b
  induction b with
  | zero =>
    intro k
    simp [retryAux]
  | succ b ih =>
    intro k
    simp only [retryAux]
    by_cases h : o k = true
    · rw [if_pos h]
      refine ⟨by omega, ?_⟩
      constructor
      · intro _
        exact ⟨0, by omega, by simpa using h⟩
      · intro _
        rfl
    · rw [if_neg h]
      obtain ⟨h1, h2⟩ := ih (k + 1)
      refine ⟨?_, ?_⟩
      · show (retryAux o b (k + 1)).2 + 1 ≤ b + 1
        omega
      show (retryAux o b (k + 1)).1 = true ↔ _
      rw [h2]
      constructor
      · rintro ⟨j, hj, hoj⟩
        refine ⟨j + 1, by omega, ?_⟩
        have : k + (j + 1) = k + 1 + j := by omega
        rw [this]
        exact hoj
      · rintro ⟨j, hj, hoj⟩
        rcases j with _ | j'
        · simp only [Nat.add_zero] at hoj
          exact absurd hoj (by simpa using h)
        · refine ⟨j', by omega, ?_⟩
          have : k + 1 + j' = k + (j' + 1) := by omega
          rw [this]
          exact hoj

theorem truncI_bounds {q bound : ℚ} (h1 : -bound ≤ q) (h2 : q ≤ bound) :
    -bound ≤ (truncI q : ℚ) ∧ (truncI q : ℚ) ≤ bound := by
  have hb : 0 ≤ bound := by
    by_contra hb
    push_neg at hb
    linarith
  unfold truncI
  by_cases hq : 0 ≤ q
  · rw [if_pos hq]
    constructor
    · have : (0 : ℤ) ≤ ⌊q⌋ := Int.floor_nonneg.mpr hq
      have : (0 : ℚ) ≤ (⌊q⌋ : ℚ) := by exact_mod_cast this
      linarith
    · have := Int.floor_le q
      linarith
  · rw [if_neg hq]
    push_neg at hq
    push_cast
    constructor
    · have := Int.floor_le (-q)
      linarith
    · have : (0 : ℤ) ≤ ⌊-q⌋ := Int.floor_nonneg.mpr (by linarith)
      have : (0 : ℚ) ≤ (⌊-q⌋ : ℚ) := by exact_mod_cast this
      linarith

theorem calc_jitter_band (k : Nat) (u : ℚ) (h0 : 0 ≤ u) (h1 : u < 1) :
    -((calc_delay_ms k : ℚ)) ≤ 10 * (calc_jitter k u : ℚ) ∧
      10 * (calc_jitter k u : ℚ) ≤ (calc_delay_ms k : ℚ) := by
  set b : ℚ := (calc_delay_ms k : ℚ) with hbdef
  have hb : 0 ≤ b := by positivity
  set q : ℚ := b * (2 / 10) * (u - 1 / 2) with hqdef
  have hql : -(b / 10) ≤ q := by
    rw [hqdef]
    nlinarith [mul_nonneg hb h0]
  have hqu : q ≤ b / 10 := by
    rw [hqdef]
    nlinarith [mul_nonneg hb (by linarith : (0 : ℚ) ≤ 1 - u)]
  have hj : calc_jitter k u = truncI q := by
    rw [calc_jitter, hqdef, hbdef]
  rw [hj]
  obtain ⟨hl, hu⟩ := truncI_bounds hql hqu
  constructor
  · linarith
  · linarith

theorem calculate_retry_delay_band (k : Nat) (u : ℚ) (h0 : 0 ≤ u) (h1 : u < 1) :
    9 * calc_delay_ms k ≤ 10 * calculate_retry_delay_ms k u ∧
      10 * calculate_retry_delay_ms k u ≤ 11 * calc_delay_ms k := by
  obtain ⟨hl, hu⟩ := calc_jitter_band k u h0 h1
  have hlz : -((calc_delay_ms k : ℤ)) ≤ 10 * calc_jitter k u := by exact_mod_cast hl
  have huz : 10 * calc_jitter k u ≤ (calc_delay_ms k : ℤ) := by exact_mod_cast hu
  have hnn : 0 ≤ (calc_delay_ms k : ℤ) + calc_jitter k u := by omega
  have hcast : (calculate_retry_delay_ms k u : ℤ) = (calc_delay_ms k : ℤ) + calc_jitter k u := by
    rw [calculate_retry_delay_ms]
    exact Int.toNat_of_nonneg hnn
  constructor
  · have : (9 * calc_delay_ms k : ℤ) ≤ 10 * calculate_retry_delay_ms k u := by
      rw [hcast]
      omega
    exact_mod_cast this
  · have : (10 * calculate_retry_delay_ms k u : ℤ) ≤ 11 * calc_delay_ms k := by
      rw [hcast]
      omega
    exact_mod_cast this

theorem seg_end_last (S N : Nat) (hN : 0 < N) : seg_end S N (N - 1) = S := by
  have h1 : (N - 1) * (S / N) + S / N = N * (S / N) := by
    rcases N with _ | n
    · omega
    · simp only [Nat.succ_sub_one]
      ring
  have h2 := Nat.div_add_mod S N
  simp only [seg_end, seg_start, stream_size, extra_bytes, if_true, ite_true]
  generalize hq : S / N = q at h1 h2 ⊢
  generalize hr : S % N = r at h2 ⊢
  omega

/-! ## Claim theorems -/

/-- Claim C4: for every file size S and stream count N ≥ 1, the planned
segments satisfy start_i = i * (S / N), every non-last segment has length
S / N and abuts the next one, the last segment ends exactly at S (absorbing
S mod N), and the segments are pairwise disjoint with union exactly
[0, S). -/
theorem c4_segment_partition (S N : Nat) (hN : 0 < N) :
    (∀ i, seg_start S N i = i * (S / N)) ∧
    (∀ i, i + 1 < N → seg_end S N i - seg_start S N i = S / N) ∧
    (∀ i, i + 1 < N → seg_end S N i = seg_start S N (i + 1)) ∧
    seg_end S N (N - 1) = S ∧
    (∀ i j, i < j → j < N → seg_end S N i ≤ seg_start S N j) ∧
    (∀ x, x < S ↔ ∃ i, i < N ∧ seg_start S N i ≤ x ∧ x < seg_end S N i) := by
  have hlastend := seg_end_last S N hN
  refine ⟨fun i => rfl, ?_, ?_, hlastend, ?_, ?_⟩
  · intro i hi
    have hne : i ≠ N - 1 := by omega
    simp only [seg_end, seg_start, stream_size, if_neg hne, Nat.add_zero]
    generalize S / N = q
    omega
  · intro i hi
    have hne : i ≠ N - 1 := by omega
    simp only [seg_end, seg_start, stream_size, if_neg hne, Nat.add_zero]
    ring
  · intro i j hij hjN
    have hne : i ≠ N - 1 := by omega
    simp only [seg_end, seg_start, stream_size, if_neg hne, Nat.add_zero]
    have h1 : (i + 1) * (S / N) ≤ j * (S / N) := mul_le_mul_right' (by omega) _
    have h2 : (i + 1) * (S / N) = i * (S / N) + S / N := by ring
    generalize hq : S / N = q at h1 h2 ⊢
    omega
  · intro x
    constructor
    · intro hx
      by_cases hq0 : S / N = 0
      · refine ⟨N - 1, by omega, ?_, ?_⟩
        · simp [seg_start, stream_size, hq0]
        · rw [hlastend]
          exact hx
      · by_cases hcase : x / (S / N) < N
        · refine ⟨x / (S / N), hcase, ?_, ?_⟩
          · simp only [seg_start, stream_size]
            exact Nat.div_mul_le_self x (S / N)
          · by_cases hlast : x / (S / N) = N - 1
            · rw [hlast, hlastend]
              exact hx
            · simp only [seg_end, seg_start, stream_size, if_neg hlast, Nat.add_zero]
              have hqpos : 0 < S / N := Nat.pos_of_ne_zero hq0
              have h1 := Nat.div_add_mod x (S / N)
              have h2 := Nat.mod_lt x hqpos
              have h3 : S / N * (x / (S / N)) = x / (S / N) * (S / N) := Nat.mul_comm ..
              generalize ha : x / (S / N) = a at h1 h3 ⊢
              generalize hq : S / N = q at h1 h2 h3 ⊢
              generalize hm : x % q = m at h1 h2
              omega
        · push_neg at hcase
          refine ⟨N - 1, by omega, ?_, ?_⟩
          · simp only [seg_start, stream_size]
            have h1 : (N - 1) * (S / N) ≤ x / (S / N) * (S / N) :=
              mul_le_mul_right' (by omega) _
            have h2 := Nat.div_mul_le_self x (S / N)
            exact le_trans h1 h2
          · rw [hlastend]
            exact hx
    · rintro ⟨i, hiN, h1, h2⟩
      have key : seg_end S N i ≤ S := by
        by_cases hlast : i = N - 1
        · rw [hlast, hlastend]
        · simp only [seg_end, seg_start, stream_size, if_neg hlast, Nat.add_zero]
          have hmul : (i + 1) * (S / N) ≤ N * (S / N) := mul_le_mul_right' (by omega) _
          have heq : (i + 1) * (S / N) = i * (S / N) + S / N := by ring
          have hdm := Nat.div_add_mod S N
          generalize hq : S / N = q at hmul heq hdm ⊢
          generalize hr : S % N = r at hdm
          omega
      omega

/-- Witness for C4 at the spec's own example S = 100, N = 8 (seven segments
of length 12, the last of length 16, ending at 100). -/
theorem c4_segment_partition_witness :
    0 < 8 ∧
    ((∀ i, seg_start 100 8 i = i * (100 / 8)) ∧
     (∀ i, i + 1 < 8 → seg_end 100 8 i - seg_start 100 8 i = 100 / 8) ∧
     (∀ i, i + 1 < 8 → seg_end 100 8 i = seg_start 100 8 (i + 1)) ∧
     seg_end 100 8 (8 - 1) = 100 ∧
     (∀ i j, i < j → j < 8 → seg_end 100 8 i ≤ seg_start 100 8 j) ∧
     (∀ x, x < 100 ↔ ∃ i, i < 8 ∧ seg_start 100 8 i ≤ x ∧ x < seg_end 100 8 i)) :=
  ⟨by decide, c4_segment_partition 100 8 (by decide)⟩

/-- Claim C7: the worker retry loop (`ssh_comm.rs:29-145`) performs at most
`retries + 1` attempts and returns success exactly when one of the admitted
attempts succeeded — otherwise an error.  `outcome k` abstracts whether the
k-th attempt succeeds. -/
theorem c7_retry_budget (retries : Nat) (outcome : Nat → Bool) :
    (streamRetryLoop retries outcome).2 ≤ retries + 1 ∧
      ((streamRetryLoop retries outcome).1 = true ↔
        ∃ k, k ≤ retries ∧ outcome k = true) := by
  obtain ⟨h1, h2⟩ := retryAux_spec outcome (retries + 1) 0
  refine ⟨h1, ?_⟩
  rw [streamRetryLoop, h2]
  constructor
  · rintro ⟨j, hj, hoj⟩
    exact ⟨j, by omega, by simpa using hoj⟩
  · rintro ⟨k, hk, hok⟩
    exact ⟨k, by omega, by simpa using hok⟩

/-- Claim C6, counterexample: the wired workers sleep a constant 5000 ms
(`RETRY_DELAY_SECONDS`, `ssh_comm.rs:9`) between attempts, which no draw
u ∈ [0,1) of the claimed formula max(0, base + jitter) with
base = min(1000·2^0, 30000) can produce at attempt 0. -/
theorem c6_wired_delay_not_backoff :
    wired_retry_delay_ms 0 = 5000 ∧
      ∀ u : ℚ, 0 ≤ u → u < 1 → calculate_retry_delay_ms 0 u ≠ 5000 := by
  refine ⟨rfl, ?_⟩
  intro u h0 h1 heq
  have hbase : calc_delay_ms 0 = 1000 := by
    norm_num [calc_delay_ms, BASE_RETRY_DELAY_MS, MAX_RETRY_DELAY_MS]
  obtain ⟨hl, hu⟩ := calculate_retry_delay_band 0 u h0 h1
  rw [hbase, heq] at hu
  omega

/-- Claim C6, amended: the wired workers' inter-attempt delay is the constant
5 s `RETRY_DELAY_SECONDS`; the formula base = min(1000·2^k, 30000) with
jitter base·0.2·(u−0.5) and delay max(0, base+jitter) is computed only by
the unused `calculate_retry_delay` in `ssh.rs`, whose value lies within the
jitter band [0.9·base, 1.1·base] and is capped at 33000 ms. -/
theorem c6_retry_delay_amended (k : Nat) (u : ℚ) (hk : k ≤ 53) (h0 : 0 ≤ u)
    (h1 : u < 1) :
    wired_retry_delay_ms k = 5000 ∧
    calc_delay_ms k = min (1000 * 2 ^ k) 30000 ∧
    9 * calc_delay_ms k ≤ 10 * calculate_retry_delay_ms k u ∧
    10 * calculate_retry_delay_ms k u ≤ 11 * calc_delay_ms k ∧
    calculate_retry_delay_ms k u ≤ 33000 := by
  have hpow : 2 ^ k < 2 ^ 64 := Nat.pow_lt_pow_right (by norm_num) (by omega)
  have hpowmod : 2 ^ k % 2 ^ 64 = 2 ^ k := Nat.mod_eq_of_lt hpow
  have hmul : 1000 * 2 ^ k < 2 ^ 64 := by
    have hk53 : (2 : Nat) ^ k ≤ 2 ^ 53 := Nat.pow_le_pow_right (by norm_num) hk
    have : 1000 * 2 ^ k ≤ 1000 * 2 ^ 53 := Nat.mul_le_mul_left 1000 hk53
    have hbig : 1000 * 2 ^ 53 < 2 ^ 64 := by norm_num
    omega
  have hbase : calc_delay_ms k = min (1000 * 2 ^ k) 30000 := by
    rw [calc_delay_ms, BASE_RETRY_DELAY_MS, MAX_RETRY_DELAY_MS, hpowmod,
      Nat.mod_eq_of_lt hmul]
  obtain ⟨hl, hu⟩ := calculate_retry_delay_band k u h0 h1
  refine ⟨rfl, hbase, hl, hu, ?_⟩
  have hcap : calc_delay_ms k ≤ 30000 := by
    rw [hbase]
    omega
  omega

/-- Witness for the amended C6 at attempt k = 0 and draw u = 0. -/
theorem c6_retry_delay_amended_witness :
    (0 : Nat) ≤ 53 ∧ (0 : ℚ) ≤ 0 ∧ (0 : ℚ) < 1 ∧
    (wired_retry_delay_ms 0 = 5000 ∧
     calc_delay_ms 0 = min (1000 * 2 ^ 0) 30000 ∧
     9 * calc_delay_ms 0 ≤ 10 * calculate_retry_delay_ms 0 0 ∧
     10 * calculate_retry_delay_ms 0 0 ≤ 11 * calc_delay_ms 0 ∧
     calculate_retry_delay_ms 0 0 ≤ 33000) :=
  ⟨by decide, le_refl 0, zero_lt_one,
    c6_retry_delay_amended 0 0 (by decide) (le_refl 0) zero_lt_one⟩

/-- Claim C1, code bug: pulling the 3-byte remote file f.bin with contents
[1,2,3] over 2 streams reports full success (exit 0) yet assembles [1,1,2]
into the destination — the `dd` command's `skip = start / BUFFER_SIZE`
(`ssh_comm.rs:35`) floors stream 1's start offset 1 to block 0, so its
bytes are read from offset 0 instead of offset 1. -/
theorem c1_pull_corruption :
    pullRun (strBytes "d") "f.bin".data [1, 2, 3] 2 (fun _ => true) =
      (0, [(destPath (strBytes "d") (strBytes "f.bin"), [1, 1, 2])]) ∧
    ([1, 1, 2] : List Nat) ≠ [1, 2, 3] :=
  ⟨by decide, by decide⟩

/-- Claim C2, code bug: when a stream exhausts its retries, the pull arm of
`main` exits 1, but the push arm exits 0 — `split_and_copy_binary_file`
returns `()` and only prints the failure to stderr, and `main.rs:194-207`
checks nothing. -/
theorem c2_push_failure_exits_zero :
    main_exit_push [true] = 0 ∧
    push_reports_failure [true] = true ∧
    main_exit_pull [true] = 1 ∧
    main_exit_pull [false, false] = 0 ∧
    main_exit_push [false] = 0 := by
  decide

/-- Claim C9, code bug: the string "0" parses as a valid `usize`, so
`-s 0` passes the argument validation at `main.rs:152-157` (which only
catches parse errors), and the coordinator then evaluates
`file_size / num_streams` with divisor 0 — a Rust division-by-zero panic —
while a genuinely unparseable value and a positive value behave as the
claim says. -/
theorem c9_streams_zero_reaches_division :
    streams_arg "0".data = some 0 ∧
    stream_size_checked 100 0 = none ∧
    streams_arg "x".data = none ∧
    streams_arg "20".data = some 20 ∧
    stream_size_checked 100 20 = some 5 := by
  decide

/-- Claim C8, counterexample: with an explicit key path configured whose
auth fails, an existing and working default key, and no agent,
`connect_and_auth` authenticates via the default key (the code retries
defaults whenever the session is unauthenticated), while the claim's
chain — which skips default keys when an explicit path is configured —
ends in `PermissionDenied`. -/
theorem c8_defaults_tried_after_explicit_failure :
    connect_and_auth_code true false true true true false false false false false =
      AuthResult.ok (AuthMethod.defaultKey 0) ∧
    connect_and_auth_claim true false true true true false false false false false =
      AuthResult.permissionDenied := by
  decide

/-- Claim C8, amended: the chain is (a) explicit key if configured, failure
only logged; (b) whenever the session is still unauthenticated — including
after a failed explicit-key attempt — the default keys in fixed order, each
only if it exists; (c) the agent; else `PermissionDenied`.  The code equals
this amended chain on every environment, and it denies exactly when no step
can authenticate. -/
theorem c8_auth_chain_amended :
    ∀ hasKey explicitOk homeSet e0 o0 e1 o1 e2 o2 agentOk : Bool,
      connect_and_auth_code hasKey explicitOk homeSet e0 o0 e1 o1 e2 o2 agentOk =
        connect_and_auth_amended hasKey explicitOk homeSet e0 o0 e1 o1 e2 o2 agentOk ∧
      (connect_and_auth_code hasKey explicitOk homeSet e0 o0 e1 o1 e2 o2 agentOk =
          AuthResult.permissionDenied ↔
        ¬(hasKey = true ∧ explicitOk = true) ∧
        ¬(homeSet = true ∧
          ((e0 && o0) = true ∨ (e1 && o1) = true ∨ (e2 && o2) = true)) ∧
        agentOk = false) := by
  decide

/-- Claim C3, counterexample: in a concrete pull of [1,2,3] with 2 streams,
the coordinator performs no file operation at all before spawning workers
(in particular it neither creates nor length-sets the destination), and the
workers write only the stream files, whose paths differ from the
destination path — contradicting the claim that a pre-extended single
destination file receives every worker's segment. -/
theorem c3_no_preextension_counterexample :
    pullPreWorkerOps = ([] : List FileOp) ∧
    pullWorkerPhase (strBytes "d") [1, 2, 3] 2 (fun _ => true) =
      [FileOp.createFile (streamPath (strBytes "d") 0),
       FileOp.writeAll (streamPath (strBytes "d") 0) [1],
       FileOp.createFile (streamPath (strBytes "d") 1),
       FileOp.writeAll (streamPath (strBytes "d") 1) [1, 2]] ∧
    (∀ i, i < 2 → streamPath (strBytes "d") i ≠ destPath (strBytes "d") (strBytes "f.bin")) ∧
    (∀ p n, FileOp.setLen p n ∉ pullWorkerPhase (strBytes "d") [1, 2, 3] 2 (fun _ => true)) := by
  have heq : pullWorkerPhase (strBytes "d") [1, 2, 3] 2 (fun _ => true) =
      [FileOp.createFile (streamPath (strBytes "d") 0),
       FileOp.writeAll (streamPath (strBytes "d") 0) [1],
       FileOp.createFile (streamPath (strBytes "d") 1),
       FileOp.writeAll (streamPath (strBytes "d") 1) [1, 2]] := by decide
  refine ⟨rfl, heq, by decide, ?_⟩
  intro p n hmem
  rw [heq] at hmem
  simp at hmem

/-- Claim C3, amended: the pull coordinator performs no local file operation
before spawning workers; each worker writes its bytes only to its own
per-stream file `dir/stream_i.bin`; pre-extension (`set_len`) never occurs;
and the destination file is created only by the assembly phase, after all
workers have finished, as its first operation. -/
theorem c3_stream_files_then_assemble (dir : List Nat) (src : List Nat) (N : Nat)
    (ok : Nat → Bool) (name : List Nat) :
    pullPreWorkerOps = [] ∧
    (∀ op ∈ pullWorkerPhase dir src N ok, ∃ i, i < N ∧
      (op = FileOp.createFile (streamPath dir i) ∨
       op = FileOp.writeAll (streamPath dir i) (pullStreamContent src N i))) ∧
    (pullAssemblyOps dir name N).head? = some (FileOp.createFile (destPath dir name)) ∧
    (∀ p n, FileOp.setLen p n ∉
      pullWorkerPhase dir src N ok ++ pullAssemblyOps dir name N) := by
  have hworker : ∀ op ∈ pullWorkerPhase dir src N ok, ∃ i, i < N ∧
      (op = FileOp.createFile (streamPath dir i) ∨
       op = FileOp.writeAll (streamPath dir i) (pullStreamContent src N i)) := by
    intro op hop
    simp only [pullWorkerPhase, List.mem_flatten, List.mem_map] at hop
    obtain ⟨l, ⟨i, hi, rfl⟩, hop⟩ := hop
    refine ⟨i, List.mem_range.mp hi, ?_⟩
    unfold pullWorkerOps at hop
    by_cases hok : ok i
    · rw [if_pos hok] at hop
      simpa using hop
    · rw [if_neg hok] at hop
      simp at hop
  refine ⟨rfl, hworker, rfl, ?_⟩
  intro p n hmem
  rcases List.mem_append.mp hmem with h | h
  · obtain ⟨i, _, hop | hop⟩ := hworker _ h <;> simp at hop
  · simp only [pullAssemblyOps, List.mem_cons, List.mem_flatten, List.mem_map] at h
    rcases h with h | ⟨l, ⟨i, _, rfl⟩, h⟩
    · simp at h
    · simp at h

/-- Witness for the amended C3: the first operation of worker 0 in the
concrete run is a creation of its own stream file. -/
theorem c3_stream_files_then_assemble_witness :
    ∃ i, i < 2 ∧
      (FileOp.createFile (streamPath (strBytes "d") 0) =
        FileOp.createFile (streamPath (strBytes "d") i) ∨
       FileOp.createFile (streamPath (strBytes "d") 0) =
        FileOp.writeAll (streamPath (strBytes "d") i)
          (pullStreamContent [1, 2, 3] 2 i)) :=
  (c3_stream_files_then_assemble (strBytes "d") [1, 2, 3] 2 (fun _ => true)
    (strBytes "f.bin")).2.1
    (FileOp.createFile (streamPath (strBytes "d") 0)) (by decide)

/-- Claim C5, counterexample: a pull of [1,2] with 2 streams in which stream
1 fails every attempt exits nonzero and leaves `d/stream_0.bin` — a file
other than the destination — on the local host. -/
theorem c5_failed_pull_leaves_stream_file :
    pullRun (strBytes "d") "f.bin".data [1, 2] 2 (fun i => i == 0) =
      (1, [(streamPath (strBytes "d") 0, [1])]) ∧
    streamPath (strBytes "d") 0 ≠ destPath (strBytes "d") (strBytes "f.bin") :=
  ⟨by decide, by decide⟩

/-- Claim C5, amended: on a fully successful pull the per-stream temporary
files are all removed during assembly and the destination — holding the
concatenation of the stream contents — is the only file left; on a failed
pull the process exits 1 and the files left behind are exactly per-stream
temporary files (those of streams that ran). -/
theorem c5_pull_persisted_state (dir : List Nat) (rf name : List Char)
    (src : List Nat) (N : Nat) (ok : Nat → Bool)
    (hname : file_name_model rf = some name)
    (hndest : ∀ i, i < N → destPath dir (name.map Char.toNat) ≠ streamPath dir i) :
    (pullAllOk src N ok = true →
      (pullRun dir rf src N ok).1 = 0 ∧
      getD (pullRun dir rf src N ok).2 (destPath dir (name.map Char.toNat)) =
        pullAssembled src N ∧
      (∀ p, p ∈ fsKeys (pullRun dir rf src N ok).2 ↔
        p = destPath dir (name.map Char.toNat))) ∧
    (pullAllOk src N ok = false →
      (pullRun dir rf src N ok).1 = 1 ∧
      (∀ p, p ∈ fsKeys (pullRun dir rf src N ok).2 →
        ∃ i, i < N ∧ p = streamPath dir i)) := by
  obtain ⟨w1, w2, w3⟩ :=
    pullWorker_fold dir src N ok (List.range N) [] (List.nodup_range _)
  constructor
  · intro hall
    have hrun : pullRun dir rf src N ok =
        (0, applyOps (applyOps [] (pullWorkerPhase dir src N ok))
          (pullAssemblyOps dir (name.map Char.toNat) N)) := by
      simp only [pullRun, hall, hname, if_true, ite_true]
    have hoki : ∀ i, i < N → ok i = true := by
      intro i hi
      have hdone := List.all_eq_true.mp hall i (List.mem_range.mpr hi)
      simp only [pullStreamDone, Bool.and_eq_true] at hdone
      exact hdone.1
    have hc : ∀ i ∈ List.range N,
        getD (applyOps [] (pullWorkerPhase dir src N ok)) (streamPath dir i) =
          pullStreamContent src N i := by
      intro i hi
      exact w2 i hi (hoki i (List.mem_range.mp hi))
    have hne : ∀ i ∈ List.range N,
        destPath dir (name.map Char.toNat) ≠ streamPath dir i := by
      intro i hi
      exact hndest i (List.mem_range.mp hi)
    set s1 := applyOps [] (pullWorkerPhase dir src N ok) with hs1
    set dp := destPath dir (name.map Char.toNat) with hdp
    set s2 := setEntry s1 dp [] with hs2
    have hsplit : applyOps s1 (pullAssemblyOps dir (name.map Char.toNat) N) =
        applyOps s2 (((List.range N).map (fun i =>
          [FileOp.copyInto (streamPath dir i) dp,
           FileOp.removeFile (streamPath dir i)])).flatten) := by
      rw [pullAssemblyOps]
      rfl
    have hc2 : ∀ i ∈ List.range N, getD s2 (streamPath dir i) =
        pullStreamContent src N i := by
      intro i hi
      rw [hs2, getD_setEntry_ne _ _ (Ne.symm (hne i hi))]
      exact hc i hi
    have hdpk : dp ∈ fsKeys s2 := by
      rw [hs2]
      exact mem_fsKeys_setEntry.mpr (Or.inr rfl)
    obtain ⟨a1, a2⟩ := pullAssembly_fold dir dp (pullStreamContent src N)
      (List.range N) s2 (List.nodup_range _) hne hc2 hdpk
    refine ⟨by rw [hrun], ?_, ?_⟩
    · rw [hrun]
      show getD (applyOps s1 (pullAssemblyOps dir (name.map Char.toNat) N)) dp =
        pullAssembled src N
      rw [hsplit, a1, hs2, getD_setEntry_self, List.nil_append]
      rfl
    · intro p
      rw [hrun]
      show p ∈ fsKeys (applyOps s1 (pullAssemblyOps dir (name.map Char.toNat) N)) ↔ p = dp
      rw [hsplit, a2 p]
      constructor
      · rintro ⟨hp2, hpn⟩
        rcases mem_fsKeys_setEntry.mp (hs2 ▸ hp2) with hp1 | hp1
        · rcases w3 p hp1 with habs | ⟨i, hi, _, hpi⟩
          · simp [fsKeys_nil] at habs
          · exact absurd hpi (hpn i hi)
        · exact hp1
      · rintro rfl
        exact ⟨hdpk, hne⟩
  · intro hfail
    have hrun : pullRun dir rf src N ok =
        (1, applyOps [] (pullWorkerPhase dir src N ok)) := by
      simp only [pullRun, hfail, Bool.false_eq_true, if_false]
    refine ⟨by rw [hrun], ?_⟩
    intro p hp
    rw [hrun] at hp
    rcases w3 p hp with habs | ⟨i, hi, _, hpi⟩
    · simp [fsKeys_nil] at habs
    · exact ⟨i, List.mem_range.mp hi, hpi⟩

/-- Witness for the amended C5 at the concrete pull of [1,2] with 2 streams
into directory d with remote name f.bin. -/
theorem c5_pull_persisted_state_witness :
    file_name_model "f.bin".data = some "f.bin".data ∧
    (∀ i, i < 2 →
      destPath (strBytes "d") ("f.bin".data.map Char.toNat) ≠ streamPath (strBytes "d") i) ∧
    ((pullAllOk [1, 2] 2 (fun _ => true) = true →
      (pullRun (strBytes "d") "f.bin".data [1, 2] 2 (fun _ => true)).1 = 0 ∧
      getD (pullRun (strBytes "d") "f.bin".data [1, 2] 2 (fun _ => true)).2
          (destPath (strBytes "d") ("f.bin".data.map Char.toNat)) =
        pullAssembled [1, 2] 2 ∧
      (∀ p, p ∈ fsKeys (pullRun (strBytes "d") "f.bin".data [1, 2] 2 (fun _ => true)).2 ↔
        p = destPath (strBytes "d") ("f.bin".data.map Char.toNat))) ∧
    (pullAllOk [1, 2] 2 (fun _ => true) = false →
      (pullRun (strBytes "d") "f.bin".data [1, 2] 2 (fun _ => true)).1 = 1 ∧
      (∀ p, p ∈ fsKeys (pullRun (strBytes "d") "f.bin".data [1, 2] 2 (fun _ => true)).2 →
        ∃ i, i < 2 ∧ p = streamPath (strBytes "d") i))) :=
  ⟨by decide, by decide,
    c5_pull_persisted_state (strBytes "d") "f.bin".data "f.bin".data [1, 2] 2
      (fun _ => true) (by decide) (by decide)⟩

theorem breakAt_spec (sep : Char) : ∀ l : List Char, sep ∈ l →
    l = (breakAt sep l).1 ++ sep :: (breakAt sep l).2 ∧ sep ∉ (breakAt sep l).1 := by
  intro l
  induction l with
  | nil =>
    intro h
    simp at h
  | cons c rest ih =>
    intro h
    by_cases hc : c = sep
    · subst hc
      simp [breakAt]
    · have hbr : breakAt sep (c :: rest) =
          (c :: (breakAt sep rest).1, (breakAt sep rest).2) := by
        simp [breakAt, hc]
      have hsep : sep ∈ rest := by
        rcases List.mem_cons.mp h with h1 | h1
        · exact absurd h1.symm hc
        · exact h1
      obtain ⟨ih1, ih2⟩ := ih hsep
      rw [hbr]
      constructor
      · show c :: rest = c :: (breakAt sep rest).1 ++ sep :: (breakAt sep rest).2
        conv_lhs => rw [ih1]
        rw [List.cons_append]
      · intro hmem
        rcases List.mem_cons.mp hmem with h1 | h1
        · exact hc h1.symm
        · exact ih2 h1

/-- Claim C10, counterexample: the string `@h:p` contains a colon yet
`parse_location` classifies it neither as remote nor as local — it rejects
it as invalid (`None`), because the user-host part starts with `@`
(`main.rs:26-28`).  The claim that every colon-containing string is
classified as remote is therefore false. -/
theorem c10_colon_string_not_remote :
    ':' ∈ "@h:p".data ∧
    parse_location (some "u".data) "@h:p".data = none :=
  ⟨by decide, by decide⟩

/-- Claim C10, amended: every location string containing a colon is either
rejected as invalid or classified as remote, with the user-host part and the
path split at the first colon (an empty path becoming `.`) — never as
local; and exactly the strings with no colon are classified as local, with
the whole string as the path. -/
theorem c10_parse_location_classification (userEnv : Option (List Char))
    (loc : List Char) :
    (':' ∈ loc →
      parse_location userEnv loc = none ∨
      ∃ u h, parse_location userEnv loc =
        some (some (u, h),
          if (breakAt ':' loc).2.isEmpty then ['.'] else (breakAt ':' loc).2)) ∧
    (':' ∈ loc → loc = (breakAt ':' loc).1 ++ ':' :: (breakAt ':' loc).2 ∧
      ':' ∉ (breakAt ':' loc).1) ∧
    (':' ∉ loc → parse_location userEnv loc = some (none, loc)) ∧
    (∀ r, parse_location userEnv loc = some (none, r) → ':' ∉ loc ∧ r = loc) := by
  have hremote : ':' ∈ loc →
      parse_location userEnv loc = none ∨
      ∃ u h, parse_location userEnv loc =
        some (some (u, h),
          if (breakAt ':' loc).2.isEmpty then ['.'] else (breakAt ':' loc).2) := by
    intro hmem
    simp only [parse_location, if_pos hmem]
    by_cases h1 : (breakAt ':' loc).1.head? = some '@'
    · rw [if_pos h1]
      exact Or.inl rfl
    · rw [if_neg h1]
      by_cases h2 : (breakAt ':' loc).1.getLast? = some '@'
      · rw [if_pos h2]
        exact Or.inl rfl
      · rw [if_neg h2]
        rcases hsp : splitAllChar '@' (breakAt ':' loc).1 with _ | ⟨a, tl⟩
        · exact Or.inl rfl
        · rcases tl with _ | ⟨b, tl2⟩
          · rcases userEnv with _ | u
            · exact Or.inl rfl
            · exact Or.inr ⟨u, a, rfl⟩
          · rcases tl2 with _ | ⟨d, tl3⟩
            · exact Or.inr ⟨a, b, rfl⟩
            · exact Or.inl rfl
  have hlocal : ':' ∉ loc → parse_location userEnv loc = some (none, loc) := by
    intro hnot
    simp only [parse_location, if_neg hnot]
  refine ⟨hremote, breakAt_spec ':' loc, hlocal, ?_⟩
  intro r hr
  by_cases hmem : ':' ∈ loc
  · exfalso
    rcases hremote hmem with h | ⟨u, h, heq⟩
    · rw [h] at hr
      exact Option.noConfusion hr
    · rw [heq] at hr
      simp at hr
  · have := hlocal hmem
    rw [this] at hr
    simp at hr
    exact ⟨hmem, hr.symm⟩

/-- Witness for the amended C10 at the concrete remote location `h:p` with
`USER=u` and the concrete local location `p` for the no-colon case. -/
theorem c10_parse_location_classification_witness :
    (parse_location (some "u".data) "h:p".data = none ∨
      ∃ u h, parse_location (some "u".data) "h:p".data =
        some (some (u, h),
          if (breakAt ':' "h:p".data).2.isEmpty then ['.']
          else (breakAt ':' "h:p".data).2)) ∧
    parse_location (some "u".data) "p".data = some (none, "p".data) :=
  ⟨(c10_parse_location_classification (some "u".data) "h:p".data).1 (by decide),
   (c10_parse_location_classification (some "u".data) "p".data).2.2.1 (by decide)⟩

end Zap
